import Mathlib

/-!
Verification of the hft_core concurrency library against its specification.

Each C++ component relevant to the checked claims is shallowly embedded:

* `MemPool` — `hft::core::MemoryPool<T, BlockSize>` (include/hft_core/MemoryPool.hpp):
  block-allocated fixed-size storage with an explicit freelist vector.
* `TPool` — `hft::core::ThreadPool` (ThreadPool.hpp): stop flag and FIFO task queue.
* `EBus` — `hft::core::EventBus` synchronous dispatch (EventBus.hpp).
* `EFlush` — `hft::core::EventBus` asynchronous worker/flush interplay as a
  small-step transition system.
* `LFPool` — `hft::core::LockFreeMemoryPool<T>` CAS loops as a small-step
  interleaving machine.
* `Cfg` — `hft::core::Config` (include/hft_core/Config.hpp) save/load round trip.

Storage addresses, task callables and event instances are represented by
natural-number identifiers; machine strings are lists of characters.
-/

namespace MemPool

/-- State of a `MemoryPool<T, BlockSize>`.  Slots are numbered consecutively as
blocks are allocated; `cap` is `blocks_.size() * objects_per_block_`, `free`
models the `free_list_` vector (index 0 = vector front, list end = vector
back), and `live` is a ghost record of the slots handed out by `allocate` and
not yet returned, most recent first. -/
structure PoolState where
  cap : Nat
  free : List Nat
  live : List Nat
deriving DecidableEq, Repr

/-- `capacity()`: `blocks_.size() * objects_per_block_`. -/
def capacity (s : PoolState) : Nat := s.cap

/-- `available()`: `free_list_.size()`. -/
def available (s : PoolState) : Nat := s.free.length

/-- `allocate_block()` with `objects_per_block_ = opb`: appends one fresh block
of `opb` slots, pushing each new slot onto the back of the freelist in
address order. -/
def allocate_block (opb : Nat) (s : PoolState) : PoolState :=
  { cap := s.cap + opb
    free := s.free ++ (List.range opb).map (fun i => s.cap + i)
    live := s.live }

/-- The `MemoryPool(size_t initial_blocks = 1)` constructor.  The body calls
`allocate_block()` exactly once and never reads `initial_blocks`. -/
def mkPool (opb : Nat) (initial_blocks : Nat) : PoolState :=
  allocate_block opb { cap := 0, free := [], live := [] }

/-- `allocate()`: grow by one block if the freelist is empty, then pop the back
of the freelist (`free_list_.back()` / `pop_back()`).  Returns `none` exactly
when `back()` would be called on an empty vector (only possible with
`opb = 0`, i.e. `sizeof(T) > BlockSize`, where the C++ has undefined
behaviour). -/
def allocate (opb : Nat) (s : PoolState) : Option (PoolState × Nat) :=
  let s1 := if s.free.isEmpty then allocate_block opb s else s
  match s1.free.getLast? with
  | none => none
  | some p => some ({ cap := s1.cap, free := s1.free.dropLast, live := p :: s1.live }, p)

/-- `deallocate(T* ptr)`: `if (ptr) free_list_.push_back(ptr);`.  `none` models
a null pointer.  The ghost `live` list drops the returned slot. -/
def deallocate (s : PoolState) (ptr : Option Nat) : PoolState :=
  match ptr with
  | none => s
  | some p => { cap := s.cap, free := s.free ++ [p], live := s.live.erase p }

/-- `construct(args...)`: allocate, then placement-construct; if the element
constructor throws, deallocate the slot and rethrow.  `ctorOk` tells whether
the element constructor succeeds; the returned pointer is `none` when the
constructor's failure propagates to the caller. -/
def construct (opb : Nat) (s : PoolState) (ctorOk : Bool) :
    Option (PoolState × Option Nat) :=
  match allocate opb s with
  | none => none
  | some (s1, p) =>
    if ctorOk then some (s1, some p) else some (deallocate s1 (some p), none)

/-- `destroy(T* ptr)`: `if (ptr) { ptr->~T(); deallocate(ptr); }`.  The boolean
records whether the destructor was invoked. -/
def destroy (s : PoolState) (ptr : Option Nat) : PoolState × Bool :=
  match ptr with
  | none => (s, false)
  | some p => (deallocate s (some p), true)

/-- A client operation on the pool: an `allocate()` call, or a `deallocate()`
of a specific previously-allocated (still live) slot. -/
inductive Op where
  | alloc : Op
  | dealloc : Nat → Op
deriving DecidableEq, Repr

/-- Run a sequence of client operations.  A `dealloc p` step is only legal when
`p` is currently live (the claim speaks of deallocating a previously allocated
slot); an illegal trace yields `none`. -/
def runOps (opb : Nat) (s : PoolState) : List Op → Option PoolState
  | [] => some s
  | Op.alloc :: rest =>
    match allocate opb s with
    | none => none
    | some (s1, _) => runOps opb s1 rest
  | Op.dealloc p :: rest =>
    if p ∈ s.live then runOps opb (deallocate s (some p)) rest else none

/-- The representation invariant of a well-used pool: the freelist holds
distinct in-range slots, no slot is simultaneously free and live, and free
plus live slots exhaust the capacity. -/
structure Inv (s : PoolState) : Prop where
  free_nodup : s.free.Nodup
  free_lt : ∀ p ∈ s.free, p < s.cap
  live_lt : ∀ p ∈ s.live, p < s.cap
  disj : ∀ p ∈ s.free, p ∉ s.live
  count : s.free.length + s.live.length = s.cap
  live_nodup : s.live.Nodup

theorem inv_empty : Inv { cap := 0, free := [], live := [] } := by
  constructor <;> simp

theorem inv_allocate_block {opb : Nat} {s : PoolState} (h : Inv s) :
    Inv (allocate_block opb s) := by
  obtain ⟨h1, h2, h3, h4, h5, h6⟩ := h
  refine ⟨?_, ?_, ?_, ?_, ?_, h6⟩
  · apply List.Nodup.append h1
    · exact List.Nodup.map (fun a b hab => by omega) (List.nodup_range opb)
    · intro q hq hq'
      have := h2 q hq
      simp only [List.mem_map, List.mem_range] at hq'
      omega
  · intro q hq
    rcases List.mem_append.mp hq with hq | hq
    · have := h2 q hq
      simp only [allocate_block]
      omega
    · simp only [List.mem_map, List.mem_range] at hq
      simp only [allocate_block]
      omega
  · intro q hq
    have := h3 q hq
    simp only [allocate_block]
    omega
  · intro q hq hql
    rcases List.mem_append.mp hq with hq | hq
    · exact h4 q hq hql
    · have := h3 q hql
      simp only [List.mem_map, List.mem_range] at hq
      omega
  · simp only [allocate_block, List.length_append, List.length_map, List.length_range]
    omega

theorem inv_pop {s : PoolState} {p : Nat} (h : Inv s) (hl : s.free.getLast? = some p) :
    Inv { cap := s.cap, free := s.free.dropLast, live := p :: s.live } := by
  obtain ⟨h1, h2, h3, h4, h5, h6⟩ := h
  have hne : s.free ≠ [] := by
    intro he
    rw [he] at hl
    exact Option.noConfusion hl
  have hgl : s.free.getLast hne = p := by
    rw [List.getLast?_eq_getLast _ hne] at hl
    exact Option.some.inj hl
  have hsplit : s.free.dropLast ++ [p] = s.free := by
    rw [← hgl]
    exact List.dropLast_append_getLast hne
  have hnd : (s.free.dropLast ++ [p]).Nodup := by rw [hsplit]; exact h1
  rcases List.nodup_append.mp hnd with ⟨hnd1, _, hdisj⟩
  have hpmem : p ∈ s.free := by
    rw [← hsplit]; exact List.mem_append_right _ (by simp)
  have hsub : ∀ q ∈ s.free.dropLast, q ∈ s.free := by
    intro q hq
    rw [← hsplit]
    exact List.mem_append_left _ hq
  have hlen : s.free.dropLast.length + 1 = s.free.length := by
    have := congrArg List.length hsplit
    simpa using this
  refine ⟨hnd1, ?_, ?_, ?_, ?_, ?_⟩
  · exact fun q hq => h2 q (hsub q hq)
  · intro q hq
    rcases List.mem_cons.mp hq with hq | hq
    · subst hq; exact h2 q hpmem
    · exact h3 q hq
  · intro q hq hql
    rcases List.mem_cons.mp hql with hql | hql
    · subst hql
      exact hdisj hq (by simp)
    · exact h4 q (hsub q hq) hql
  · simp only [List.length_cons]
    omega
  · exact List.nodup_cons.mpr ⟨h4 p hpmem, h6⟩

theorem inv_allocate {opb : Nat} {s s' : PoolState} {p : Nat} (h : Inv s)
    (ha : allocate opb s = some (s', p)) : Inv s' := by
  have hinv1 : Inv (if s.free.isEmpty then allocate_block opb s else s) := by
    by_cases he : s.free.isEmpty
    · simpa [he] using @inv_allocate_block opb s h
    · simpa [he] using h
  simp only [allocate] at ha
  split at ha
  · exact Option.noConfusion ha
  · rename_i q hl
    injection ha with ha'
    injection ha' with hs' hp
    subst hp
    exact hs' ▸ inv_pop hinv1 hl

theorem inv_deallocate {s : PoolState} {p : Nat} (h : Inv s) (hp : p ∈ s.live) :
    Inv (deallocate s (some p)) := by
  obtain ⟨h1, h2, h3, h4, h5, h6⟩ := h
  refine ⟨?_, ?_, ?_, ?_, ?_, ?_⟩
  · apply List.Nodup.append h1 (List.nodup_singleton p)
    intro q hq hq'
    rw [List.mem_singleton] at hq'
    subst hq'
    exact h4 q hq hp
  · intro q hq
    rcases List.mem_append.mp hq with hq | hq
    · exact h2 q hq
    · rw [List.mem_singleton] at hq
      subst hq
      exact h3 q hp
  · intro q hq
    exact h3 q (List.mem_of_mem_erase hq)
  · intro q hq hql
    rcases List.mem_append.mp hq with hq | hq
    · exact h4 q hq (List.mem_of_mem_erase hql)
    · rw [List.mem_singleton] at hq
      subst hq
      rcases (h6.mem_erase_iff).mp hql with ⟨hne, _⟩
      exact hne rfl
  · have hlen := List.length_erase_of_mem hp
    have hpos : 0 < s.live.length := List.length_pos.mpr (List.ne_nil_of_mem hp)
    simp only [deallocate, List.length_append, List.length_singleton, hlen]
    omega
  · exact h6.erase p

theorem inv_runOps {opb : Nat} {ops : List Op} {s s' : PoolState} (h : Inv s)
    (hr : runOps opb s ops = some s') : Inv s' := by
  induction ops generalizing s with
  | nil =>
    simp only [runOps, Option.some.injEq] at hr
    exact hr ▸ h
  | cons op rest ih =>
    cases op with
    | alloc =>
      simp only [runOps] at hr
      cases ha : allocate opb s with
      | none => rw [ha] at hr; exact Option.noConfusion hr
      | some pr =>
        obtain ⟨s1, p⟩ := pr
        rw [ha] at hr
        exact ih (inv_allocate h ha) hr
    | dealloc p =>
      simp only [runOps] at hr
      by_cases hp : p ∈ s.live
      · rw [if_pos hp] at hr
        exact ih (inv_deallocate h hp) hr
      · rw [if_neg hp] at hr
        exact Option.noConfusion hr

theorem inv_mkPool (opb ib : Nat) : Inv (mkPool opb ib) :=
  inv_allocate_block inv_empty

theorem allocate_of_ne_nil {opb : Nat} {s s1 : PoolState} {p : Nat}
    (hne : ¬s.free.isEmpty) (ha : allocate opb s = some (s1, p)) :
    s1.cap = s.cap ∧ s1.free.length + 1 = s.free.length := by
  simp only [allocate, if_neg hne] at ha
  split at ha
  · exact Option.noConfusion ha
  · rename_i q hl
    injection ha with ha'
    injection ha' with hs' hp
    subst hs'
    have hnil : s.free ≠ [] := by
      intro he
      exact hne (by simp [he])
    have hpos : 0 < s.free.length := List.length_pos.mpr hnil
    refine ⟨rfl, ?_⟩
    simp only [List.length_dropLast]
    omega

theorem allocate_of_nil {opb : Nat} {s s1 : PoolState} {p : Nat}
    (hnil : s.free = []) (ha : allocate opb s = some (s1, p)) :
    s1.cap = s.cap + opb ∧ s1.free.length + 1 = opb := by
  have he : s.free.isEmpty := by simp [hnil]
  simp only [allocate, if_pos he] at ha
  split at ha
  · exact Option.noConfusion ha
  · rename_i q hl
    injection ha with ha'
    injection ha' with hs' hp
    subst hs'
    have hlnil : (allocate_block opb s).free ≠ [] := by
      intro hcon
      rw [hcon] at hl
      exact Option.noConfusion hl
    have hpos : 0 < (allocate_block opb s).free.length := List.length_pos.mpr hlnil
    have hlen : (allocate_block opb s).free.length = opb := by
      simp [allocate_block, hnil]
    rw [hlen] at hpos
    refine ⟨rfl, ?_⟩
    simp only [List.length_dropLast, hlen]
    omega

theorem allocate_then_deallocate {opb : Nat} {s s1 : PoolState} {p : Nat}
    (ha : allocate opb s = some (s1, p)) :
    deallocate s1 (some p) = if s.free.isEmpty then allocate_block opb s else s := by
  simp only [allocate] at ha
  split at ha
  · exact Option.noConfusion ha
  · rename_i q hl
    injection ha with ha'
    injection ha' with hs' hp
    subst hp
    subst hs'
    set t := if s.free.isEmpty then allocate_block opb s else s with ht
    have hne : t.free ≠ [] := by
      intro hcon
      rw [hcon] at hl
      exact Option.noConfusion hl
    have hgl : t.free.getLast hne = q := by
      rw [List.getLast?_eq_getLast _ hne] at hl
      exact Option.some.inj hl
    have hsplit : t.free.dropLast ++ [q] = t.free := by
      rw [← hgl]
      exact List.dropLast_append_getLast hne
    simp only [deallocate, List.erase_cons_head, hsplit]

end MemPool

namespace MemPool

example : mkPool 2 5 = { cap := 2, free := [0, 1], live := [] } := by decide

example : allocate 2 (mkPool 2 5) = some ({ cap := 2, free := [0], live := [1] }, 1) := by
  decide

example : runOps 1 (mkPool 1 1) [Op.alloc] = some { cap := 1, free := [], live := [0] } := by
  decide

example : construct 1 { cap := 1, free := [], live := [0] } false =
    some ({ cap := 2, free := [1], live := [0] }, none) := by decide

example : construct 1 { cap := 1, free := [0], live := [] } false =
    some ({ cap := 1, free := [0], live := [] }, none) := by decide

/-- C3: along every legal operation sequence on a fresh `MemoryPool`
(deallocations only of live slots), `available()` never exceeds `capacity()`;
an `allocate()` on a non-empty freelist decreases `available()` by exactly 1
and leaves `capacity()` unchanged; an `allocate()` on an empty freelist grows
`capacity()` by exactly `BlockSize / sizeof(T)` slots (the only way capacity
ever changes) and leaves `available()` one below the slot count of the fresh
block; a `deallocate()` of a live slot increases `available()` by exactly 1
and leaves `capacity()` unchanged. -/
theorem mempool_counter_invariants (opb ib : Nat) (ops : List Op) (s : PoolState)
    (h : runOps opb (mkPool opb ib) ops = some s) :
    available s ≤ capacity s
    ∧ (∀ s1 p, allocate opb s = some (s1, p) →
        (¬s.free.isEmpty →
          available s1 + 1 = available s ∧ capacity s1 = capacity s)
        ∧ (s.free = [] →
          capacity s1 = capacity s + opb ∧ available s1 + 1 = opb))
    ∧ (∀ p, p ∈ s.live →
        available (deallocate s (some p)) = available s + 1
        ∧ capacity (deallocate s (some p)) = capacity s) := by
  have hinv : Inv s := inv_runOps (inv_mkPool opb ib) h
  refine ⟨?_, ?_, ?_⟩
  · have := hinv.count
    simp only [available, capacity]
    omega
  · intro s1 p ha
    constructor
    · intro hne
      obtain ⟨hc, hlen⟩ := allocate_of_ne_nil hne ha
      exact ⟨hlen, hc⟩
    · intro hnil
      obtain ⟨hc, hlen⟩ := allocate_of_nil hnil ha
      exact ⟨hc, hlen⟩
  · intro p _
    constructor
    · simp [available, deallocate]
    · rfl

/-- Witness for C3 at a concrete pool: `objects_per_block_ = 2`, one
`allocate()` performed after construction. -/
theorem mempool_counter_invariants_witness :
    runOps 2 (mkPool 2 1) [Op.alloc] = some { cap := 2, free := [0], live := [1] }
    ∧ available { cap := 2, free := [0], live := [1] } ≤
        capacity { cap := 2, free := [0], live := [1] } :=
  ⟨by decide,
   (mempool_counter_invariants 2 1 [Op.alloc] { cap := 2, free := [0], live := [1] }
     (by decide)).1⟩

/-- C5 counterexample: with `objects_per_block_ = 1`, start from a fresh pool
whose single slot has been allocated (`available() = 0`, `capacity() = 1`).
A `construct` whose element constructor throws first grows the pool by one
block inside `allocate()`, so after the rollback `available() = 1` and
`capacity() = 2` — neither equals its value before the call, refuting the
claim that the rolled-back pool reports its pre-call counters. -/
theorem construct_rollback_cex :
    runOps 1 (mkPool 1 1) [Op.alloc] = some { cap := 1, free := [], live := [0] }
    ∧ construct 1 { cap := 1, free := [], live := [0] } false =
        some ({ cap := 2, free := [1], live := [0] }, none)
    ∧ available { cap := 1, free := [], live := [0] } = 0
    ∧ capacity { cap := 1, free := [], live := [0] } = 1
    ∧ available { cap := 2, free := [1], live := [0] } = 1
    ∧ capacity { cap := 2, free := [1], live := [0] } = 2 := by decide

/-- C5 (amended): if the element constructor invoked by `construct(args...)`
fails, no pointer is returned (the failure propagates to the caller), the
allocated slot goes back to the freelist leaving the set of live slots
unchanged, and the pool state equals its pre-call state whenever the freelist
was non-empty at the call; if the freelist was empty, the pool state equals
the pre-call state plus exactly the one fresh block that `allocate()` added
(all of whose slots are free). -/
theorem construct_rollback (opb : Nat) (s s' : PoolState) (r : Option Nat)
    (h : construct opb s false = some (s', r)) :
    r = none ∧ s'.live = s.live
    ∧ (¬s.free.isEmpty → s' = s)
    ∧ (s.free.isEmpty → s' = allocate_block opb s) := by
  simp only [construct] at h
  cases ha : allocate opb s with
  | none => rw [ha] at h; exact Option.noConfusion h
  | some pr =>
    obtain ⟨s1, p⟩ := pr
    rw [ha] at h
    simp only [Bool.false_eq_true, if_false] at h
    injection h with h'
    injection h' with hs' hr
    subst hr
    have hd := allocate_then_deallocate ha
    refine ⟨rfl, ?_, ?_, ?_⟩
    · rw [← hs', hd]
      by_cases he : s.free.isEmpty
      · simp [he, allocate_block]
      · simp [he]
    · intro hne
      rw [← hs', hd, if_neg hne]
    · intro he
      rw [← hs', hd, if_pos he]

/-- Witness for C5 (amended) at a concrete pool with a non-empty freelist:
the failed `construct` restores the exact pre-call state. -/
theorem construct_rollback_witness :
    ¬({ cap := 1, free := [0], live := [] } : PoolState).free.isEmpty
    ∧ ({ cap := 1, free := [0], live := [] } : PoolState) =
        { cap := 1, free := [0], live := [] } :=
  ⟨by decide,
   (construct_rollback 1 { cap := 1, free := [0], live := [] }
       { cap := 1, free := [0], live := [] } none (by decide)).2.2.1 (by decide)⟩

/-- C9: the `MemoryPool` constructor ignores its `initial_blocks` parameter —
whatever the argument, it calls `allocate_block()` exactly once, so right
after construction `capacity()` equals `BlockSize / sizeof(T)` (one block) and
`available()` equals `capacity()`. -/
theorem mkPool_ignores_initial_blocks (opb ib : Nat) :
    mkPool opb ib = mkPool opb 1
    ∧ capacity (mkPool opb ib) = opb
    ∧ available (mkPool opb ib) = capacity (mkPool opb ib) := by
  refine ⟨rfl, ?_, ?_⟩ <;> simp [mkPool, allocate_block, capacity, available]

/-- C10: `deallocate(nullptr)` and `destroy(nullptr)` are safe no-ops: the pool
state (freelist, `available()`, `capacity()`) is unchanged and `destroy`
invokes no destructor. -/
theorem null_deallocate_destroy_noop (s : PoolState) :
    deallocate s none = s ∧ destroy s none = (s, false) :=
  ⟨rfl, rfl⟩

end MemPool

namespace TPool

/-- State of a `ThreadPool` as seen by `enqueue`: the `stop_` flag and the
`tasks_` FIFO queue (head of the list = front of the queue, submissions are
appended at the back).  Tasks are identified by numbers. -/
structure PoolSt where
  stop : Bool
  tasks : List Nat
deriving DecidableEq, Repr

/-- The only submission-time failure: the `std::runtime_error("enqueue on
stopped ThreadPool")` that the spec calls `SchedulerClosed`. -/
inductive EnqueueError where
  | schedulerClosed
deriving DecidableEq, Repr

/-- `ThreadPool::enqueue`: under the queue mutex, if `stop_` is set, throw
`SchedulerClosed` without touching the queue; otherwise append the task at
the back and return the future (modelled as the task's identifier). -/
def enqueue (s : PoolSt) (t : Nat) : PoolSt × Except EnqueueError Nat :=
  if s.stop then (s, Except.error EnqueueError.schedulerClosed)
  else ({ stop := s.stop, tasks := s.tasks ++ [t] }, Except.ok t)

/-- Shutdown initiation (the destructor's `stop_.store(true)`). -/
def shutdownPool (s : PoolSt) : PoolSt :=
  { stop := true, tasks := s.tasks }

/-- C1: enqueue after shutdown (the stop flag is set) always fails with
`SchedulerClosed` and leaves the task queue untouched; enqueue before
shutdown never fails, appends the task at the tail of the FIFO queue, and
returns a handle to the task's result. -/
theorem enqueue_stop_semantics (s : PoolSt) (t : Nat) :
    (s.stop = true → enqueue s t = (s, Except.error EnqueueError.schedulerClosed))
    ∧ (s.stop = false →
        enqueue s t = ({ stop := false, tasks := s.tasks ++ [t] }, Except.ok t))
    ∧ enqueue (shutdownPool s) t =
        (shutdownPool s, Except.error EnqueueError.schedulerClosed) :=
  ⟨fun h => by simp [enqueue, h],
   fun h => by simp [enqueue, h],
   by simp [enqueue, shutdownPool]⟩

/-- Witness for C1: a stopped pool rejects the task and keeps its queue; a
running pool appends at the tail and returns the handle. -/
theorem enqueue_stop_semantics_witness :
    enqueue { stop := true, tasks := [3] } 7 =
      ({ stop := true, tasks := [3] }, Except.error EnqueueError.schedulerClosed)
    ∧ enqueue { stop := false, tasks := [3] } 7 =
      ({ stop := false, tasks := [3, 7] }, Except.ok 7) :=
  ⟨(enqueue_stop_semantics { stop := true, tasks := [3] } 7).1 rfl,
   (enqueue_stop_semantics { stop := false, tasks := [3] } 7).2.1 rfl⟩

end TPool

namespace EBus

/-- Outcome of invoking one subscriber: normal return, a throw of a type
derived from `std::exception` (the only thing `dispatch_event`'s
`catch (const std::exception&)` clause catches), or a throw of anything
else. -/
inductive HRes where
  | ok
  | raisesStd
  | raisesOther
deriving DecidableEq, Repr

/-- One registered subscriber closure: an identity plus its behaviour when
invoked. -/
structure Handler where
  id : Nat
  res : HRes
deriving DecidableEq, Repr

/-- The `handlers_` registry: `unordered_map<type_index, vector<handler>>`,
modelled as an association list with (invariantly) unique keys.  Event types
(`std::type_index`) are numbered. -/
abbrev Registry := List (Nat × List Handler)

/-- `handlers_.find(tid)`: the handler list registered for exactly `tid`. -/
def lookupHandlers : Registry → Nat → Option (List Handler)
  | [], _ => none
  | (k, hs) :: rest, tid => if k = tid then some hs else lookupHandlers rest tid

/-- `subscribe<EventType>(handler)`: `handlers_[tid].push_back(h)` — append to
the type's list, default-constructing an empty list first if absent. -/
def subscribe : Registry → Nat → Handler → Registry
  | [], tid, h => [(tid, [h])]
  | (k, hs) :: rest, tid, h =>
    if k = tid then (k, hs ++ [h]) :: rest else (k, hs) :: subscribe rest tid h

/-- `unsubscribe<EventType>()`: `handlers_.erase(tid)` — drop the type's whole
entry. -/
def unsubscribe : Registry → Nat → Registry
  | [], _ => []
  | (k, hs) :: rest, tid => if k = tid then rest else (k, hs) :: unsubscribe rest tid

/-- The dispatch loop body over one handler list: invoke each handler in
order; a `std::exception` throw is caught and dispatch continues; any other
throw propagates out of the loop.  Returns the identities invoked (in order)
and the identity of the handler whose failure escaped to the caller, if
any. -/
def runHandlers : List Handler → List Nat × Option Nat
  | [] => ([], none)
  | h :: rest =>
    match h.res with
    | HRes.ok => ((runHandlers rest).1.cons h.id, (runHandlers rest).2)
    | HRes.raisesStd => ((runHandlers rest).1.cons h.id, (runHandlers rest).2)
    | HRes.raisesOther => ([h.id], some h.id)

/-- `dispatch_event` (synchronous `publish`): look up the handlers registered
for the event's exact type and run them; no handlers registered means nothing
is invoked. -/
def dispatch_event (reg : Registry) (tid : Nat) : List Nat × Option Nat :=
  match lookupHandlers reg tid with
  | none => ([], none)
  | some hs => runHandlers hs

/-- The registry keys are pairwise distinct (always true of an
`unordered_map`). -/
abbrev keysNodup (reg : Registry) : Prop := (reg.map Prod.fst).Nodup

theorem runHandlers_no_other {hs : List Handler}
    (h : ∀ x ∈ hs, x.res ≠ HRes.raisesOther) :
    runHandlers hs = (hs.map Handler.id, none) := by
  induction hs with
  | nil => rfl
  | cons x rest ih =>
    have hx := h x (List.mem_cons_self x rest)
    have hrest : ∀ y ∈ rest, y.res ≠ HRes.raisesOther :=
      fun y hy => h y (List.mem_cons_of_mem x hy)
    cases hres : x.res with
    | ok => simp [runHandlers, hres, ih hrest]
    | raisesStd => simp [runHandlers, hres, ih hrest]
    | raisesOther => exact absurd hres hx

theorem lookup_subscribe (reg : Registry) (tid : Nat) (h : Handler) :
    lookupHandlers (subscribe reg tid h) tid =
      some ((lookupHandlers reg tid).getD [] ++ [h]) := by
  induction reg with
  | nil => simp [subscribe, lookupHandlers]
  | cons e rest ih =>
    obtain ⟨k, hs⟩ := e
    by_cases hk : k = tid
    · subst hk
      simp [subscribe, lookupHandlers]
    · simp [subscribe, lookupHandlers, hk, ih]

/-- C2 counterexample: two handlers subscribed for type 0; the first raises a
failure not derived from `std::exception`.  Dispatch invokes only the first
handler, the second never runs, and the failure escapes to the publisher —
refuting the claim that any failure is caught and dispatch continues. -/
theorem dispatch_event_cex :
    subscribe (subscribe [] 0 { id := 0, res := HRes.raisesOther })
        0 { id := 1, res := HRes.ok } =
      [(0, [{ id := 0, res := HRes.raisesOther }, { id := 1, res := HRes.ok }])]
    ∧ dispatch_event
        [(0, [{ id := 0, res := HRes.raisesOther }, { id := 1, res := HRes.ok }])]
        0 = ([0], some 0) := by decide

/-- C2 (amended): in synchronous mode, `publish` invokes each handler
subscribed for exactly the event's type exactly once, in subscription order
(subscribing appends at the end of the type's list), on the caller's thread;
a failure raised by a handler is caught and discarded — and dispatch
continues with the remaining handlers — provided the thrown object derives
from `std::exception`; only such failures are guaranteed never to reach the
publisher. -/
theorem dispatch_event_sync (reg : Registry) (tid : Nat) (hs : List Handler)
    (hlook : lookupHandlers reg tid = some hs)
    (hstd : ∀ x ∈ hs, x.res ≠ HRes.raisesOther) :
    dispatch_event reg tid = (hs.map Handler.id, none)
    ∧ ∀ h : Handler,
        lookupHandlers (subscribe reg tid h) tid = some (hs ++ [h]) := by
  constructor
  · simp [dispatch_event, hlook, runHandlers_no_other hstd]
  · intro h
    rw [lookup_subscribe, hlook]
    rfl

/-- Witness for C2 (amended): three handlers where the middle one raises a
`std::exception`-derived failure; all three are invoked in subscription order
and nothing reaches the publisher. -/
theorem dispatch_event_sync_witness :
    lookupHandlers
        [(4, [{ id := 0, res := HRes.ok }, { id := 1, res := HRes.raisesStd },
              { id := 2, res := HRes.ok }])] 4 =
      some [{ id := 0, res := HRes.ok }, { id := 1, res := HRes.raisesStd },
            { id := 2, res := HRes.ok }]
    ∧ dispatch_event
        [(4, [{ id := 0, res := HRes.ok }, { id := 1, res := HRes.raisesStd },
              { id := 2, res := HRes.ok }])] 4 = ([0, 1, 2], none) :=
  ⟨by decide,
   (dispatch_event_sync
     [(4, [{ id := 0, res := HRes.ok }, { id := 1, res := HRes.raisesStd },
           { id := 2, res := HRes.ok }])] 4
     [{ id := 0, res := HRes.ok }, { id := 1, res := HRes.raisesStd },
      { id := 2, res := HRes.ok }] (by decide) (by decide)).1⟩

theorem lookup_none_of_not_mem {reg : Registry} {tid : Nat}
    (h : tid ∉ reg.map Prod.fst) : lookupHandlers reg tid = none := by
  induction reg with
  | nil => rfl
  | cons e rest ih =>
    obtain ⟨k, hs⟩ := e
    simp only [List.map_cons, List.mem_cons] at h
    push_neg at h
    obtain ⟨h1, h2⟩ := h
    have hk : ¬k = tid := fun hk => h1 hk.symm
    simp only [lookupHandlers, if_neg hk]
    exact ih h2

theorem unsubscribe_lookup_self (reg : Registry) (tid : Nat) :
    keysNodup reg → lookupHandlers (unsubscribe reg tid) tid = none := by
  induction reg with
  | nil => intro _; rfl
  | cons e rest ih =>
    intro hnd
    obtain ⟨k, hs⟩ := e
    simp only [keysNodup, List.map_cons, List.nodup_cons] at hnd
    obtain ⟨hk, hrest⟩ := hnd
    by_cases hkt : k = tid
    · subst hkt
      simp only [unsubscribe, if_pos rfl]
      exact lookup_none_of_not_mem hk
    · simp only [unsubscribe, if_neg hkt, lookupHandlers, if_neg hkt]
      exact ih hrest

theorem unsubscribe_lookup_other (reg : Registry) (tid tid' : Nat) (hne : tid' ≠ tid) :
    lookupHandlers (unsubscribe reg tid) tid' = lookupHandlers reg tid' := by
  induction reg with
  | nil => rfl
  | cons e rest ih =>
    obtain ⟨k, hs⟩ := e
    by_cases hkt : k = tid
    · subst hkt
      have hnt : ¬k = tid' := fun hc => hne hc.symm
      simp [unsubscribe, lookupHandlers, hnt]
    · by_cases hkt' : k = tid'
      · subst hkt'
        simp [unsubscribe, hkt, lookupHandlers]
      · simp only [unsubscribe, if_neg hkt, lookupHandlers, if_neg hkt']
        exact ih

/-- C6: `unsubscribe<T>()` removes the entire handler list registered for `T`
— a subsequent synchronous publish of a `T` invokes no handlers — while the
handler lists of every other event type are unchanged. -/
theorem unsubscribe_clears_type (reg : Registry) (tid : Nat) (hnd : keysNodup reg) :
    lookupHandlers (unsubscribe reg tid) tid = none
    ∧ dispatch_event (unsubscribe reg tid) tid = ([], none)
    ∧ ∀ tid', tid' ≠ tid →
        lookupHandlers (unsubscribe reg tid) tid' = lookupHandlers reg tid' := by
  have hmain := unsubscribe_lookup_self reg tid hnd
  exact ⟨hmain, by simp [dispatch_event, hmain],
    fun tid' hne => unsubscribe_lookup_other reg tid tid' hne⟩

/-- Witness for C6 on a registry with two types: unsubscribing type 0 empties
its list and leaves type 1's list intact. -/
theorem unsubscribe_clears_type_witness :
    lookupHandlers (unsubscribe
        [(0, [{ id := 0, res := HRes.ok }]), (1, [{ id := 1, res := HRes.ok }])] 0) 0 =
      none
    ∧ lookupHandlers (unsubscribe
        [(0, [{ id := 0, res := HRes.ok }]), (1, [{ id := 1, res := HRes.ok }])] 0) 1 =
      lookupHandlers
        [(0, [{ id := 0, res := HRes.ok }]), (1, [{ id := 1, res := HRes.ok }])] 1 :=
  ⟨(unsubscribe_clears_type
      [(0, [{ id := 0, res := HRes.ok }]), (1, [{ id := 1, res := HRes.ok }])] 0
      (by decide)).1,
   (unsubscribe_clears_type
      [(0, [{ id := 0, res := HRes.ok }]), (1, [{ id := 1, res := HRes.ok }])] 0
      (by decide)).2.2 1 (by decide)⟩

end EBus

namespace EFlush

/-- Shared state of the asynchronous `EventBus` seen by the dispatcher thread
(`worker_loop`) and a caller blocked in `flush()`.  `queue` is `event_queue_`
(front at the head), `inFlight` is the event the worker has popped under the
mutex but is still dispatching outside it, `dispatched` lists the events whose
dispatch has completed, in completion order, and `flushed` records whether the
pending `flush()` call has returned.  Events are identified by numbers; all
of them are published before the `flush()` call begins. -/
structure BusSt where
  queue : List Nat
  inFlight : Option Nat
  dispatched : List Nat
  flushed : Bool
deriving DecidableEq, Repr

/-- One atomic step of the worker or of the blocked flusher:

* `pop` — the worker, holding the mutex, moves the front event out of the
  queue (`event_queue_.front()` / `pop()`), then releases the mutex to
  dispatch it;
* `disp` — the worker finishes `dispatch_polymorphic_event` on the event it
  holds;
* `flushRet` — `flush()`'s `queue_cv_.wait` predicate `event_queue_.empty()`
  is observed true under the mutex and the call returns. -/
inductive Act where
  | pop
  | disp
  | flushRet
deriving DecidableEq, Repr

def stepB (s : BusSt) : Act → Option BusSt
  | Act.pop =>
    match s.inFlight, s.queue with
    | none, e :: q => some { s with queue := q, inFlight := some e }
    | _, _ => none
  | Act.disp =>
    match s.inFlight with
    | some e => some { s with inFlight := none, dispatched := s.dispatched ++ [e] }
    | none => none
  | Act.flushRet =>
    if s.flushed = false ∧ s.queue = [] then some { s with flushed := true } else none

def runB (s : BusSt) : List Act → Option BusSt
  | [] => some s
  | a :: rest =>
    match stepB s a with
    | none => none
    | some s1 => runB s1 rest

/-- The bus just after events `es` have been published (in that order) and
`flush()` has been called. -/
def initB (es : List Nat) : BusSt :=
  { queue := es, inFlight := none, dispatched := [], flushed := false }

/-- C7 counterexample: events 1, 2, 3 are published, then `flush()` is
called.  The worker pops and dispatches 1 and 2, pops 3 and releases the
mutex; the queue is now empty, so `flush()`'s wait predicate holds and the
call returns while event 3 has not been dispatched — refuting the claim that
all three events have been dispatched before `flush()` returns. -/
theorem flush_cex :
    runB (initB [1, 2, 3]) [Act.pop, Act.disp, Act.pop, Act.disp, Act.pop, Act.flushRet] =
      some { queue := [], inFlight := some 3, dispatched := [1, 2], flushed := true }
    ∧ (3 : Nat) ∉ ([1, 2] : List Nat) := by decide

theorem stepB_inv {es : List Nat} {s s1 : BusSt} {a : Act}
    (h : s.dispatched ++ s.inFlight.toList ++ s.queue = es ∧
      (s.flushed = true → s.queue = []))
    (hs : stepB s a = some s1) :
    s1.dispatched ++ s1.inFlight.toList ++ s1.queue = es ∧
      (s1.flushed = true → s1.queue = []) := by
  obtain ⟨h1, h2⟩ := h
  cases a with
  | pop =>
    simp only [stepB] at hs
    match hf : s.inFlight, hq : s.queue with
    | none, e :: q =>
      rw [hf, hq] at hs
      injection hs with hs
      subst hs
      rw [hf, hq] at h1
      constructor
      · simpa using h1
      · intro hfl
        have := h2 hfl
        rw [hq] at this
        exact absurd this (by simp)
    | none, [] => rw [hf, hq] at hs; exact Option.noConfusion hs
    | some e, _ => rw [hf] at hs; exact Option.noConfusion hs
  | disp =>
    simp only [stepB] at hs
    match hf : s.inFlight with
    | some e =>
      rw [hf] at hs
      injection hs with hs
      subst hs
      rw [hf] at h1
      constructor
      · simpa using h1
      · intro hfl
        exact h2 hfl
    | none => rw [hf] at hs; exact Option.noConfusion hs
  | flushRet =>
    simp only [stepB] at hs
    by_cases hc : s.flushed = false ∧ s.queue = []
    · rw [if_pos hc] at hs
      injection hs with hs
      subst hs
      exact ⟨h1, fun _ => hc.2⟩
    · rw [if_neg hc] at hs
      exact Option.noConfusion hs

theorem runB_inv {es : List Nat} {acts : List Act} {s s' : BusSt}
    (h : s.dispatched ++ s.inFlight.toList ++ s.queue = es ∧
      (s.flushed = true → s.queue = []))
    (hr : runB s acts = some s') :
    s'.dispatched ++ s'.inFlight.toList ++ s'.queue = es ∧
      (s'.flushed = true → s'.queue = []) := by
  induction acts generalizing s with
  | nil =>
    simp only [runB, Option.some.injEq] at hr
    exact hr ▸ h
  | cons a rest ih =>
    simp only [runB] at hr
    cases hs : stepB s a with
    | none => rw [hs] at hr; exact Option.noConfusion hr
    | some s1 =>
      rw [hs] at hr
      exact ih (stepB_inv h hs) hr

/-- C7 (amended): in asynchronous mode, `flush()` returns only once the event
queue has been observed empty, and events are claimed by the dispatcher in
publish order; so for events `e1, e2, e3` published from one thread before the
call, by the time `flush()` returns every one of them has left the queue in
that order and all have been dispatched except possibly the single event the
dispatcher popped last, whose `dispatch` call (performed outside the queue
mutex) may still be running when `flush()` returns. -/
theorem flush_drains_queue (es : List Nat) (acts : List Act) (s : BusSt)
    (h : runB (initB es) acts = some s) :
    s.dispatched ++ s.inFlight.toList ++ s.queue = es
    ∧ (s.flushed = true →
        s.queue = [] ∧ s.dispatched ++ s.inFlight.toList = es) := by
  have hinv := @runB_inv es acts (initB es) s (by simp [initB]) h
  refine ⟨hinv.1, fun hfl => ?_⟩
  have hq := hinv.2 hfl
  refine ⟨hq, ?_⟩
  have h1 := hinv.1
  rw [hq] at h1
  simpa using h1

/-- Witness for C7 (amended), on the same schedule as the counterexample:
when `flush()` returns, events 1 and 2 are dispatched and event 3 is the
dispatcher's in-flight event. -/
theorem flush_drains_queue_witness :
    ({ queue := [], inFlight := some 3, dispatched := [1, 2], flushed := true } :
        BusSt).dispatched ++
      ({ queue := [], inFlight := some 3, dispatched := [1, 2], flushed := true } :
        BusSt).inFlight.toList = [1, 2, 3] :=
  ((flush_drains_queue [1, 2, 3]
      [Act.pop, Act.disp, Act.pop, Act.disp, Act.pop, Act.flushRet]
      { queue := [], inFlight := some 3, dispatched := [1, 2], flushed := true }
      (by decide)).2 rfl).2

end EFlush

namespace LFPool

/-- Program counter of one thread inside `LockFreeMemoryPool::allocate` /
`deallocate`.  Nodes are numbered; a pointer is `Option Nat` (`none` =
`nullptr`).

* `allocLoaded old` — after `Node* old_head = head_.load(acquire)` (or after a
  failed CAS updated `old_head`), before the loop condition reads
  `old_head->next`;
* `allocReady n desired` — `old_head = some n`, and the loop condition has
  read `desired = old_head->next.load()`; the CAS is next;
* `deallocLoaded node old` — inside `deallocate(node)` after
  `old_head = head_.load(relaxed)` (or after a failed CAS), before the
  do-while body stores `node->next`;
* `deallocStored node old` — after `node->next.store(old)`; the CAS is next. -/
inductive TPc where
  | idle
  | allocLoaded (old : Option Nat)
  | allocReady (n : Nat) (desired : Option Nat)
  | deallocLoaded (node : Nat) (old : Option Nat)
  | deallocStored (node : Nat) (old : Option Nat)
deriving DecidableEq, Repr

/-- Global state: the atomic freelist head `head_`, the `next` field of every
node created so far (indexed by node number), each thread's program counter,
and the multiset (list) of storage slots currently issued — returned by an
`allocate` whose matching `deallocate` has not yet been called. -/
structure GSt where
  head : Option Nat
  nexts : List (Option Nat)
  threads : List TPc
  issued : List Nat
deriving DecidableEq, Repr

/-- One atomic action of one thread, mirroring the individual atomic
operations of the two CAS retry loops. -/
inductive LAct where
  | beginAlloc (t : Nat)
  | allocReadNext (t : Nat)
  | allocNew (t : Nat)
  | allocCAS (t : Nat)
  | beginDealloc (t : Nat) (node : Nat)
  | deallocStore (t : Nat)
  | deallocCAS (t : Nat)
deriving DecidableEq, Repr

def lfstep (g : GSt) : LAct → Option GSt
  | LAct.beginAlloc t =>
    match g.threads.get? t with
    | some TPc.idle =>
      some { g with threads := g.threads.set t (TPc.allocLoaded g.head) }
    | _ => none
  | LAct.allocReadNext t =>
    match g.threads.get? t with
    | some (TPc.allocLoaded (some n)) =>
      some { g with threads := g.threads.set t (TPc.allocReady n (g.nexts.getD n none)) }
    | _ => none
  | LAct.allocNew t =>
    match g.threads.get? t with
    | some (TPc.allocLoaded none) =>
      some { g with nexts := g.nexts ++ [none],
                    threads := g.threads.set t TPc.idle,
                    issued := g.issued ++ [g.nexts.length] }
    | _ => none
  | LAct.allocCAS t =>
    match g.threads.get? t with
    | some (TPc.allocReady n d) =>
      if g.head = some n then
        some { g with head := d,
                      threads := g.threads.set t TPc.idle,
                      issued := g.issued ++ [n] }
      else
        some { g with threads := g.threads.set t (TPc.allocLoaded g.head) }
    | _ => none
  | LAct.beginDealloc t node =>
    match g.threads.get? t with
    | some TPc.idle =>
      if node ∈ g.issued then
        some { g with threads := g.threads.set t (TPc.deallocLoaded node g.head),
                      issued := g.issued.erase node }
      else none
    | _ => none
  | LAct.deallocStore t =>
    match g.threads.get? t with
    | some (TPc.deallocLoaded node old) =>
      some { g with nexts := g.nexts.set node old,
                    threads := g.threads.set t (TPc.deallocStored node old) }
    | _ => none
  | LAct.deallocCAS t =>
    match g.threads.get? t with
    | some (TPc.deallocStored node old) =>
      if g.head = old then
        some { g with head := some node,
                      threads := g.threads.set t TPc.idle }
      else
        some { g with threads := g.threads.set t (TPc.deallocLoaded node g.head) }
    | _ => none

def lfrun (g : GSt) : List LAct → Option GSt
  | [] => some g
  | a :: rest =>
    match lfstep g a with
    | none => none
    | some g1 => lfrun g1 rest

/-- The constructor's uncontended push loop: `initial_size` times, a new node
(numbered consecutively) gets `next := head` and becomes the new head.
Returns the head and the `next` table. -/
def mkFreelist : Nat → Option Nat × List (Option Nat)
  | 0 => (none, [])
  | n + 1 =>
    let (h, ns) := mkFreelist n
    (some ns.length, ns ++ [h])

/-- A fresh `LockFreeMemoryPool(initial_size)` with `nthreads` client
threads. -/
def lfInit (nthreads initial_size : Nat) : GSt :=
  { head := (mkFreelist initial_size).1
    nexts := (mkFreelist initial_size).2
    threads := List.replicate nthreads TPc.idle
    issued := [] }

/-- C8: the ABA interleaving on a pool of two nodes (head = node 1 → node 0)
with three threads.  Thread 0 loads `old_head = node 1` and reads
`desired = next(1) = node 0`, then stalls before its CAS.  Thread 1 pops
node 1, pops node 0 (freelist now empty), and deallocates node 1, making
node 1 the head again.  Thread 0's CAS now succeeds — `head_` still equals
its stale `old_head` — and installs the stale `desired`, pointing the
freelist head at node 0, which thread 1 still holds.  Thread 2 then
allocates and is handed node 0 a second time: the `issued` multiset
`[0, 1, 0]` contains node 0 twice, violating the no-double-issue claim. -/
theorem lockfree_aba_double_issue :
    lfrun (lfInit 3 2)
      [LAct.beginAlloc 0, LAct.allocReadNext 0,
       LAct.beginAlloc 1, LAct.allocReadNext 1, LAct.allocCAS 1,
       LAct.beginAlloc 1, LAct.allocReadNext 1, LAct.allocCAS 1,
       LAct.beginDealloc 1 1, LAct.deallocStore 1, LAct.deallocCAS 1,
       LAct.allocCAS 0,
       LAct.beginAlloc 2, LAct.allocReadNext 2, LAct.allocCAS 2] =
      some { head := none, nexts := [none, none],
             threads := [TPc.idle, TPc.idle, TPc.idle], issued := [0, 1, 0] }
    ∧ ¬([0, 1, 0] : List Nat).Nodup := by decide

end LFPool

namespace Cfg

/-- A stored `ConfigValue`:
`std::variant<std::string, int, double, bool>`.  Strings are lists of
characters.  A `double` entering the map through `parse_value`'s `stod`
branch is kept as the accepted source text (`floatLit`); the C++ `ostream`
formatting of `double` on save involves floating-point arithmetic that is not
shallowly embeddable, so no theorem below relies on saving a `floatLit`. -/
inductive CVal where
  | str : List Char → CVal
  | intV : Int → CVal
  | floatLit : List Char → CVal
  | boolV : Bool → CVal
deriving DecidableEq, Repr

/-- The character set of `Config::trim`: `" \t\r\n"`. -/
def isSpaceTrim (c : Char) : Bool :=
  c = ' ' ∨ c = '\t' ∨ c = '\r' ∨ c = '\n'

/-- `Config::trim`: drop the longest runs of `" \t\r\n"` characters at both
ends (`find_first_not_of` / `find_last_not_of` / `substr`). -/
def trim (s : List Char) : List Char :=
  ((s.dropWhile isSpaceTrim).reverse.dropWhile isSpaceTrim).reverse

/-- Whitespace skipped by `std::stoi` / `std::stod` (`isspace` in the default
locale). -/
def isSpaceStoi (c : Char) : Bool :=
  c = ' ' ∨ c = '\t' ∨ c = '\n' ∨ c = '\x0b' ∨ c = '\x0c' ∨ c = '\r'

def isDigitC (c : Char) : Bool := '0' ≤ c ∧ c ≤ '9'

def digitVal (c : Char) : Option Nat :=
  if isDigitC c then some (c.toNat - 48) else none

/-- Accumulate a decimal value over a run that must consist entirely of
digits (the `pos == value.length()` check of `parse_value`). -/
def readDigits (acc : Nat) : List Char → Option Nat
  | [] => some acc
  | c :: cs =>
    match digitVal c with
    | some d => readDigits (acc * 10 + d) cs
    | none => none

/-- The optional sign accepted by `strtol`/`strtod` after whitespace. -/
def splitSign (s : List Char) : Bool × List Char :=
  match s with
  | [] => (false, [])
  | c :: r =>
    if c = '-' then (true, r) else if c = '+' then (false, r) else (false, c :: r)

/-- `std::stoi(value, &pos)` with the `pos == value.length()` check of
`parse_value`: skip leading whitespace and an optional sign, then the entire
remainder must be one or more decimal digits and the value must fit in a
32-bit `int` (out-of-range makes `stoi` throw, which `parse_value` catches
and falls through, exactly like a parse failure). -/
def parseIntFull (v : List Char) : Option Int :=
  let v1 := v.dropWhile isSpaceStoi
  let sg := splitSign v1
  if sg.2.isEmpty then none
  else
    match readDigits 0 sg.2 with
    | none => none
    | some n =>
      let i : Int := if sg.1 then -(n : Int) else (n : Int)
      if -(2 ^ 31) ≤ i ∧ i ≤ 2 ^ 31 - 1 then some i else none

def expTail (r : List Char) : Bool :=
  let r1 := (splitSign r).2
  !r1.isEmpty && r1.all isDigitC

def expOk : List Char → Bool
  | [] => true
  | 'e' :: r => expTail r
  | 'E' :: r => expTail r
  | _ => false

/-- A decimal floating literal after the optional sign: digits with an
optional point and an optional exponent, consuming the whole remainder. -/
def decimalFloat (s : List Char) : Bool :=
  let ds := s.takeWhile isDigitC
  let rest := s.drop ds.length
  match rest with
  | [] => !ds.isEmpty
  | '.' :: r2 =>
    let ds2 := r2.takeWhile isDigitC
    let rest2 := r2.drop ds2.length
    (!ds.isEmpty || !ds2.isEmpty) && expOk rest2
  | 'e' :: r2 => !ds.isEmpty && expTail r2
  | 'E' :: r2 => !ds.isEmpty && expTail r2
  | _ => false

def hexStart : List Char → Bool
  | '0' :: 'x' :: _ => true
  | '0' :: 'X' :: _ => true
  | _ => false

def infNanForm (s : List Char) : Bool :=
  s.map Char.toLower = "inf".data
  || s.map Char.toLower = "infinity".data
  || (match s.map Char.toLower with
      | 'n' :: 'a' :: 'n' :: _ => true
      | _ => false)

/-- Whether `std::stod(value, &pos)` succeeds with `pos == value.length()`.
This over-approximates the hexadecimal/infinity/NaN edge forms (for those it
may accept strings real `stod` would only partially consume, and it ignores
`stod`'s out-of-range throw); every theorem below uses it only on the
rejecting side or on concrete inputs, so the over-approximation can only
shrink, never falsify, what is proved. -/
def floatAccepts (v : List Char) : Bool :=
  let v1 := v.dropWhile isSpaceStoi
  let v2 := (splitSign v1).2
  decimalFloat v2 || hexStart v2 || infNanForm v2

/-- `Config::parse_value`: boolean literals first (exactly `true`, `TRUE`,
`false`, `FALSE`), then `stoi`, then `stod`, else keep the string. -/
def parse_value (v : List Char) : CVal :=
  if v = "true".data ∨ v = "TRUE".data then CVal.boolV true
  else if v = "false".data ∨ v = "FALSE".data then CVal.boolV false
  else
    match parseIntFull v with
    | some i => CVal.intV i
    | none => if floatAccepts v then CVal.floatLit v else CVal.str v

def digitChar (d : Nat) : Char := Char.ofNat (48 + d)

/-- Most-significant-first digit extraction by repeated division; the fuel
argument (any bound ≥ the digit count, `n` itself suffices) keeps the
recursion structural. -/
def natCharsGo : Nat → Nat → List Char → List Char
  | 0, _, acc => acc
  | fuel + 1, n, acc =>
    if n = 0 then acc else natCharsGo fuel (n / 10) (digitChar (n % 10) :: acc)

/-- Decimal rendering of a natural number, as `operator<<` prints it. -/
def natChars (n : Nat) : List Char :=
  if n = 0 then ['0'] else natCharsGo n n []

/-- Decimal rendering of an `int`, as `operator<<` prints it. -/
def renderInt (i : Int) : List Char :=
  if i < 0 then '-' :: natChars i.natAbs else natChars i.toNat

/-- What `save_to_file`'s `std::visit` writes for one value: strings are
wrapped in double quotes, `int` prints in decimal, `bool` prints as `1`/`0`
(no `std::boolalpha` is set).  A `floatLit`'s `double` formatting is not
modelled (see `CVal`); its stored text stands in and no theorem saves one. -/
def renderVal : CVal → List Char
  | CVal.str s => '"' :: (s ++ ['"'])
  | CVal.intV i => renderInt i
  | CVal.boolV b => if b then ['1'] else ['0']
  | CVal.floatLit t => t

/-- One `file << key << "=" << value << "\n"` of `save_to_file`. -/
def saveEntry (e : List Char × CVal) : List Char :=
  e.1 ++ '=' :: (renderVal e.2 ++ ['\n'])

/-- `save_to_file`: the entries in map-iteration order (callers below supply
distinct keys, so the order does not affect the loaded result). -/
def saveFile (entries : List (List Char × CVal)) : List Char :=
  (entries.map saveEntry).flatten

/-- `std::getline` splitting: lines are separated by `'\n'`; a final fragment
without a terminating newline is still a line. -/
def splitLines : List Char → List (List Char)
  | [] => []
  | c :: cs =>
    if c = '\n' then [] :: splitLines cs
    else
      match splitLines cs with
      | [] => [[c]]
      | l :: ls => (c :: l) :: ls

/-- `line.find('=')`. -/
def findEq : List Char → Option Nat
  | [] => none
  | c :: cs => if c = '=' then some 0 else (findEq cs).map (· + 1)

/-- The quote-stripping step of `load_from_file`: remove one leading and one
trailing `'"'` when the value has length ≥ 2 and both ends are quotes. -/
def unquote (v : List Char) : List Char :=
  if 2 ≤ v.length ∧ v.head? = some '"' ∧ v.getLast? = some '"' then
    (v.drop 1).dropLast
  else v

/-- One loop iteration of `load_from_file` on one line: skip empty lines and
`#` comments and lines without `'='`; otherwise trim key and value, strip
quotes, and parse. -/
def parseLine (line : List Char) : Option (List Char × CVal) :=
  if line.isEmpty then none
  else if line.head? = some '#' then none
  else
    (findEq line).map fun pos =>
      (trim (line.take pos), parse_value (unquote (trim (line.drop (pos + 1)))))

/-- `load_from_file`: the sequence of `config_map_[key] = parse_value(...)`
assignments, in file order. -/
def loadFile (file : List Char) : List (List Char × CVal) :=
  (splitLines file).filterMap parseLine

/-- The final content of `config_map_` at a key after a load: the last
assignment wins. -/
def lookupLast : List (List Char × CVal) → List Char → Option CVal
  | [], _ => none
  | (k', v) :: rest, k =>
    match lookupLast rest k with
    | some r => some r
    | none => if k' = k then some v else none

/-- What one saved value turns into when its line is loaded back. -/
def reload (v : CVal) : CVal := parse_value (unquote (trim (renderVal v)))

end Cfg

namespace Cfg

example : parse_value "true".data = CVal.boolV true := by decide

example : parse_value "1".data = CVal.intV 1 := by decide

example : parse_value " 42".data = CVal.intV 42 := by decide

example : parse_value "3.5".data = CVal.floatLit "3.5".data := by decide

example : parse_value "hello".data = CVal.str "hello".data := by decide

example : saveFile [(['k'], CVal.boolV true)] = "k=1\n".data := by decide

example : loadFile "k=1\n".data = [(['k'], CVal.intV 1)] := by decide

example : reload (CVal.str "abc".data) = CVal.str "abc".data := by decide

example : reload (CVal.str "true".data) = CVal.boolV true := by decide

example : reload (CVal.intV (-7)) = CVal.intV (-7) := by decide

example : loadFile (saveFile [("host".data, CVal.str "local".data), ("port".data, CVal.intV 9)]) =
    [("host".data, CVal.str "local".data), ("port".data, CVal.intV 9)] := by decide

theorem digitChar_facts (d : Nat) (h : d < 10) :
    digitVal (digitChar d) = some d
    ∧ isSpaceTrim (digitChar d) = false
    ∧ isSpaceStoi (digitChar d) = false
    ∧ digitChar d ≠ '-' ∧ digitChar d ≠ '+' ∧ digitChar d ≠ '"'
    ∧ digitChar d ≠ '\n' := by
  interval_cases d <;> exact ⟨rfl, rfl, rfl, by decide, by decide, by decide, by decide⟩

theorem natCharsGo_eq (fuel : Nat) : ∀ n acc, n ≤ fuel →
    natCharsGo fuel n acc = (Nat.digits 10 n).reverse.map digitChar ++ acc := by
  induction fuel with
  | zero =>
    intro n acc h
    have hn : n = 0 := Nat.le_zero.mp h
    subst hn
    simp [natCharsGo]
  | succ fuel ih =>
    intro n acc h
    by_cases hn : n = 0
    · subst hn
      simp [natCharsGo]
    · have hdiv : n / 10 ≤ fuel := by
        have := Nat.div_lt_self (Nat.pos_of_ne_zero hn) (by norm_num : 1 < 10)
        omega
      simp only [natCharsGo, if_neg hn]
      rw [ih (n / 10) _ hdiv,
        Nat.digits_def' (by norm_num : (1 : Nat) < 10) (Nat.pos_of_ne_zero hn)]
      simp [List.reverse_cons]

theorem natChars_eq {n : Nat} (hn : n ≠ 0) :
    natChars n = (Nat.digits 10 n).reverse.map digitChar := by
  rw [natChars, if_neg hn, natCharsGo_eq n n [] (le_refl n), List.append_nil]

theorem natChars_ne_nil (n : Nat) : natChars n ≠ [] := by
  by_cases hn : n = 0
  · subst hn; simp [natChars]
  · rw [natChars_eq hn]
    simp [Nat.digits_ne_nil_iff_ne_zero.mpr hn]

theorem mem_natChars {n : Nat} {c : Char} (h : c ∈ natChars n) :
    ∃ d, d < 10 ∧ c = digitChar d := by
  by_cases hn : n = 0
  · subst hn
    have h' : c = '0' := by simpa [natChars] using h
    exact ⟨0, by norm_num, by rw [h']; rfl⟩
  · rw [natChars_eq hn] at h
    simp only [List.mem_map, List.mem_reverse] at h
    obtain ⟨d, hd, hc⟩ := h
    exact ⟨d, Nat.digits_lt_base (by norm_num) hd, hc.symm⟩

theorem natChars_head (n : Nat) :
    ∃ c, (natChars n).head? = some c ∧ ∃ d, d < 10 ∧ c = digitChar d := by
  cases hc : natChars n with
  | nil => exact absurd hc (natChars_ne_nil n)
  | cons c cs =>
    have hmem : c ∈ natChars n := by
      rw [hc]
      exact List.mem_cons_self c cs
    exact ⟨c, rfl, mem_natChars hmem⟩

theorem natChars_getLast (n : Nat) :
    ∃ c, (natChars n).getLast? = some c ∧ ∃ d, d < 10 ∧ c = digitChar d := by
  have hne : natChars n ≠ [] := natChars_ne_nil n
  exact ⟨(natChars n).getLast hne, List.getLast?_eq_getLast _ hne,
    mem_natChars (List.getLast_mem hne)⟩

theorem readDigits_append (acc : Nat) (l1 l2 : List Char) :
    readDigits acc (l1 ++ l2) = (readDigits acc l1).bind fun m => readDigits m l2 := by
  induction l1 generalizing acc with
  | nil => rfl
  | cons c cs ih =>
    simp only [List.cons_append, readDigits]
    cases hd : digitVal c with
    | some d => simp [ih]
    | none => rfl

theorem readDigits_digitsList (ds : List Nat) (h : ∀ d ∈ ds, d < 10) : ∀ acc,
    readDigits acc (ds.reverse.map digitChar) =
      some (acc * 10 ^ ds.length + Nat.ofDigits 10 ds) := by
  induction ds with
  | nil =>
    intro acc
    simp [readDigits, Nat.ofDigits_nil]
  | cons d ds ih =>
    intro acc
    have hd := h d (List.mem_cons_self d ds)
    have hds : ∀ x ∈ ds, x < 10 := fun x hx => h x (List.mem_cons_of_mem d hx)
    rw [List.reverse_cons, List.map_append, readDigits_append, ih hds acc]
    simp only [Option.some_bind, List.map_cons, List.map_nil, readDigits,
      (digitChar_facts d hd).1, Nat.ofDigits_cons, List.length_cons]
    congr 1
    ring

theorem readDigits_natChars (n : Nat) : readDigits 0 (natChars n) = some n := by
  by_cases hn : n = 0
  · subst hn; rfl
  · rw [natChars_eq hn,
      readDigits_digitsList _ (fun d hd => Nat.digits_lt_base (by norm_num) hd) 0]
    simp [Nat.ofDigits_digits]

theorem dropWhile_id_of_head {p : Char → Bool} {l : List Char}
    (h : ∀ c, l.head? = some c → p c = false) : l.dropWhile p = l := by
  cases l with
  | nil => rfl
  | cons c cs => simp [List.dropWhile_cons, h c rfl]

theorem trim_eq_self {l : List Char}
    (h1 : ∀ c, l.head? = some c → isSpaceTrim c = false)
    (h2 : ∀ c, l.getLast? = some c → isSpaceTrim c = false) :
    trim l = l := by
  unfold trim
  rw [dropWhile_id_of_head h1,
    dropWhile_id_of_head (fun c hc => h2 c (by rwa [List.head?_reverse] at hc)),
    List.reverse_reverse]

theorem splitSign_no_sign {c : Char} (r : List Char) (h1 : c ≠ '-') (h2 : c ≠ '+') :
    splitSign (c :: r) = (false, c :: r) := by
  simp [splitSign, h1, h2]

theorem natChars_dropWhile_stoi (n : Nat) :
    (natChars n).dropWhile isSpaceStoi = natChars n := by
  apply dropWhile_id_of_head
  intro c hc
  obtain ⟨c', hc', d, hd, hcd⟩ := natChars_head n
  rw [hc'] at hc
  obtain rfl := Option.some.inj hc
  rw [hcd]
  exact (digitChar_facts d hd).2.2.1

theorem splitSign_natChars (n : Nat) : splitSign (natChars n) = (false, natChars n) := by
  cases hc : natChars n with
  | nil => exact absurd hc (natChars_ne_nil n)
  | cons c cs =>
    obtain ⟨c', hc', d, hd, hcd⟩ := natChars_head n
    rw [hc] at hc'
    obtain rfl := Option.some.inj hc'
    subst hcd
    exact splitSign_no_sign cs (digitChar_facts d hd).2.2.2.1 (digitChar_facts d hd).2.2.2.2.1

theorem parseIntFull_natChars (n : Nat) (hn : (n : Int) ≤ 2 ^ 31 - 1) :
    parseIntFull (natChars n) = some (n : Int) := by
  have hne : (natChars n).isEmpty = false := by
    cases hc : natChars n with
    | nil => exact absurd hc (natChars_ne_nil n)
    | cons c cs => rfl
  simp only [parseIntFull, natChars_dropWhile_stoi, splitSign_natChars, hne,
    Bool.false_eq_true, if_false, readDigits_natChars]
  rw [if_pos ⟨by omega, hn⟩]

theorem parseIntFull_renderInt (i : Int) (hlo : -(2 ^ 31) ≤ i) (hhi : i ≤ 2 ^ 31 - 1) :
    parseIntFull (renderInt i) = some i := by
  by_cases hi : i < 0
  · rw [renderInt, if_pos hi]
    have hdrop : ('-' :: natChars i.natAbs).dropWhile isSpaceStoi =
        '-' :: natChars i.natAbs := by
      apply dropWhile_id_of_head
      intro c hc
      obtain rfl := Option.some.inj hc
      rfl
    have hsign : splitSign ('-' :: natChars i.natAbs) = (true, natChars i.natAbs) := by
      simp [splitSign]
    have hne : (natChars i.natAbs).isEmpty = false := by
      cases hc : natChars i.natAbs with
      | nil => exact absurd hc (natChars_ne_nil _)
      | cons c cs => rfl
    simp only [parseIntFull, hdrop, hsign, hne, Bool.false_eq_true, if_false,
      readDigits_natChars, if_true]
    have habs : (i.natAbs : Int) = -i := by omega
    rw [if_pos (by constructor <;> omega)]
    congr 1
    omega
  · rw [renderInt, if_neg hi]
    have htn : ((i.toNat : Int)) = i := Int.toNat_of_nonneg (by omega)
    rw [parseIntFull_natChars i.toNat (by omega)]
    rw [htn]

theorem renderInt_head (i : Int) :
    ∃ c, (renderInt i).head? = some c ∧ (c = '-' ∨ ∃ d, d < 10 ∧ c = digitChar d) := by
  by_cases hi : i < 0
  · exact ⟨'-', by rw [renderInt, if_pos hi]; rfl, Or.inl rfl⟩
  · rw [renderInt, if_neg hi]
    obtain ⟨c, hc, hd⟩ := natChars_head i.toNat
    exact ⟨c, hc, Or.inr hd⟩

theorem renderInt_getLast (i : Int) :
    ∃ c, (renderInt i).getLast? = some c ∧ ∃ d, d < 10 ∧ c = digitChar d := by
  by_cases hi : i < 0
  · rw [renderInt, if_pos hi]
    obtain ⟨c, hc, hd⟩ := natChars_getLast i.natAbs
    refine ⟨c, ?_, hd⟩
    cases hnc : natChars i.natAbs with
    | nil => exact absurd hnc (natChars_ne_nil _)
    | cons b bs =>
      rw [hnc] at hc
      rw [List.getLast?_cons_cons, hc]
  · rw [renderInt, if_neg hi]
    exact natChars_getLast i.toNat

theorem renderInt_not_reserved (i : Int) :
    ¬(renderInt i = "true".data ∨ renderInt i = "TRUE".data)
    ∧ ¬(renderInt i = "false".data ∨ renderInt i = "FALSE".data) := by
  obtain ⟨c, hc, hcd⟩ := renderInt_head i
  constructor <;> rintro (h | h) <;> rw [h] at hc <;>
    rcases hcd with rfl | ⟨d, hd, rfl⟩ <;>
    first
      | exact absurd hc (by decide)
      | (interval_cases d <;> exact absurd hc (by decide))

theorem parse_value_renderInt (i : Int) (hlo : -(2 ^ 31) ≤ i) (hhi : i ≤ 2 ^ 31 - 1) :
    parse_value (renderInt i) = CVal.intV i := by
  obtain ⟨hn1, hn2⟩ := renderInt_not_reserved i
  rw [parse_value, if_neg hn1, if_neg hn2, parseIntFull_renderInt i hlo hhi]

theorem unquote_quote (s : List Char) : unquote ('"' :: (s ++ ['"'])) = s := by
  have hassoc : '"' :: (s ++ ['"']) = ('"' :: s) ++ ['"'] := by simp
  rw [unquote, if_pos]
  · simp
  · refine ⟨by simp, rfl, ?_⟩
    rw [hassoc, List.getLast?_concat]

theorem unquote_eq_self {l : List Char}
    (h : ∀ c, l.head? = some c → c ≠ '"') : unquote l = l := by
  rw [unquote, if_neg]
  rintro ⟨hlen, hh, hl⟩
  cases l with
  | nil => exact Option.noConfusion hh
  | cons c cs => exact h c rfl (Option.some.inj hh)

theorem trim_quote (s : List Char) : trim ('"' :: (s ++ ['"'])) = '"' :: (s ++ ['"']) := by
  apply trim_eq_self
  · intro c hc
    obtain rfl := Option.some.inj hc
    rfl
  · intro c hc
    have hassoc : '"' :: (s ++ ['"']) = ('"' :: s) ++ ['"'] := by simp
    rw [hassoc, List.getLast?_concat] at hc
    obtain rfl := Option.some.inj hc
    rfl

theorem trim_renderInt (i : Int) : trim (renderInt i) = renderInt i := by
  apply trim_eq_self
  · intro c hc
    obtain ⟨c', hc', hcd⟩ := renderInt_head i
    rw [hc'] at hc
    obtain rfl := Option.some.inj hc
    rcases hcd with rfl | ⟨d, hd, rfl⟩
    · rfl
    · exact (digitChar_facts d hd).2.1
  · intro c hc
    obtain ⟨c', hc', d, hd, hcd⟩ := renderInt_getLast i
    rw [hc'] at hc
    obtain rfl := Option.some.inj hc
    rw [hcd]
    exact (digitChar_facts d hd).2.1

theorem reload_str {s : List Char} (h : parse_value s = CVal.str s) :
    reload (CVal.str s) = CVal.str s := by
  rw [reload]
  simp only [renderVal]
  rw [trim_quote, unquote_quote, h]

theorem reload_int (i : Int) (hlo : -(2 ^ 31) ≤ i) (hhi : i ≤ 2 ^ 31 - 1) :
    reload (CVal.intV i) = CVal.intV i := by
  rw [reload]
  simp only [renderVal]
  rw [trim_renderInt]
  rw [unquote_eq_self]
  · exact parse_value_renderInt i hlo hhi
  · intro c hc
    obtain ⟨c', hc', hcd⟩ := renderInt_head i
    rw [hc'] at hc
    obtain rfl := Option.some.inj hc
    rcases hcd with rfl | ⟨d, hd, rfl⟩
    · decide
    · exact (digitChar_facts d hd).2.2.2.2.2.1

theorem reload_bool (b : Bool) :
    reload (CVal.boolV b) = CVal.intV (if b then 1 else 0) := by
  cases b <;> decide

/-- Conditions under which a key written by `save_to_file` survives the
round trip unchanged: no newline (it would split the line), no `'='` (the
parser cuts at the first `'='`), already trimmed, and not starting with the
comment character. -/
def keyWF (k : List Char) : Prop :=
  ('\n' ∉ k) ∧ ('=' ∉ k) ∧ trim k = k ∧ k.head? ≠ some '#'

instance : DecidablePred keyWF := by
  intro k
  simp only [keyWF]
  infer_instance

/-- The value shapes covered by the amended round-trip statement: strings
without a newline whose text re-parses to itself, 32-bit integers, and
booleans.  `floatLit` is excluded — `double` formatting is outside the
model. -/
def valWF : CVal → Prop
  | CVal.str s => ('\n' ∉ s) ∧ parse_value s = CVal.str s
  | CVal.intV i => -(2 ^ 31) ≤ i ∧ i ≤ 2 ^ 31 - 1
  | CVal.boolV _ => True
  | CVal.floatLit _ => False

instance : DecidablePred valWF := by
  intro v
  cases v <;> simp only [valWF] <;> infer_instance

theorem newline_not_mem_renderVal {v : CVal} (hv : valWF v) : '\n' ∉ renderVal v := by
  cases v with
  | str s =>
    simp only [renderVal]
    intro hmem
    rcases List.mem_cons.mp hmem with hmem | hmem
    · exact absurd hmem (by decide)
    · rcases List.mem_append.mp hmem with hmem | hmem
      · exact hv.1 hmem
      · rw [List.mem_singleton] at hmem
        exact absurd hmem (by decide)
  | intV i =>
    simp only [renderVal]
    intro hmem
    by_cases hi : i < 0
    · rw [renderInt, if_pos hi] at hmem
      rcases List.mem_cons.mp hmem with hmem | hmem
      · exact absurd hmem (by decide)
      · obtain ⟨d, hd, hcd⟩ := mem_natChars hmem
        exact (digitChar_facts d hd).2.2.2.2.2.2 hcd.symm
    · rw [renderInt, if_neg hi] at hmem
      obtain ⟨d, hd, hcd⟩ := mem_natChars hmem
      exact (digitChar_facts d hd).2.2.2.2.2.2 hcd.symm
  | boolV b => cases b <;> decide
  | floatLit t => exact absurd hv (by simp [valWF])

theorem splitLines_append {l : List Char} (h : '\n' ∉ l) (rest : List Char) :
    splitLines (l ++ '\n' :: rest) = l :: splitLines rest := by
  induction l with
  | nil => simp [splitLines]
  | cons c cs ih =>
    have hc : c ≠ '\n' := fun hc => h (hc ▸ List.mem_cons_self c cs)
    have hcs : '\n' ∉ cs := fun hm => h (List.mem_cons_of_mem c hm)
    simp [splitLines, hc, ih hcs]

theorem findEq_append {k : List Char} (h : '=' ∉ k) (t : List Char) :
    findEq (k ++ '=' :: t) = some k.length := by
  induction k with
  | nil => simp [findEq]
  | cons c cs ih =>
    have hc : c ≠ '=' := fun hc => h (hc ▸ List.mem_cons_self c cs)
    have hcs : '=' ∉ cs := fun hm => h (List.mem_cons_of_mem c hm)
    simp [findEq, hc, ih hcs]

theorem parseLine_saveEntry (k : List Char) (v : CVal) (hk : keyWF k) :
    parseLine (k ++ '=' :: renderVal v) = some (k, reload v) := by
  obtain ⟨hkn, hke, hkt, hkh⟩ := hk
  have hne : (k ++ '=' :: renderVal v).isEmpty = false := by
    cases k <;> rfl
  have hhash : ¬(k ++ '=' :: renderVal v).head? = some '#' := by
    cases hk0 : k with
    | nil =>
      simp only [List.nil_append, List.head?_cons]
      intro hcon
      exact absurd (Option.some.inj hcon) (by decide)
    | cons c cs =>
      simp only [List.cons_append, List.head?_cons]
      rw [hk0] at hkh
      exact hkh
  rw [parseLine, hne]
  simp only [Bool.false_eq_true, if_false]
  rw [if_neg hhash, findEq_append hke]
  have htake : (k ++ '=' :: renderVal v).take k.length = k := List.take_left k _
  have hdrop : (k ++ '=' :: renderVal v).drop (k.length + 1) = renderVal v := by
    have hassoc : k ++ '=' :: renderVal v = (k ++ ['=']) ++ renderVal v := by simp
    have hlen : k.length + 1 = (k ++ ['=']).length := by simp
    rw [hassoc, hlen, List.drop_left]
  rw [Option.map_some', htake, hdrop, hkt]
  rfl

theorem loadFile_saveFile (entries : List (List Char × CVal))
    (h : ∀ e ∈ entries, keyWF e.1 ∧ valWF e.2) :
    loadFile (saveFile entries) = entries.map (fun e => (e.1, reload e.2)) := by
  induction entries with
  | nil => rfl
  | cons e rest ih =>
    obtain ⟨k, v⟩ := e
    obtain ⟨hk, hv⟩ := h (k, v) (List.mem_cons_self _ _)
    have hrest := fun e he => h e (List.mem_cons_of_mem _ he)
    have hline : saveFile ((k, v) :: rest) =
        (k ++ '=' :: renderVal v) ++ '\n' :: saveFile rest := by
      simp [saveFile, saveEntry]
    have hnol : '\n' ∉ k ++ '=' :: renderVal v := by
      intro hm
      rcases List.mem_append.mp hm with hm | hm
      · exact hk.1 hm
      · rcases List.mem_cons.mp hm with hm | hm
        · exact absurd hm (by decide)
        · exact newline_not_mem_renderVal hv hm
    simp only [loadFile] at ih ⊢
    rw [hline, splitLines_append hnol, List.filterMap_cons,
      parseLine_saveEntry k v hk, ih hrest]
    rfl

theorem lookupLast_none {l : List (List Char × CVal)} {k : List Char}
    (h : k ∉ l.map Prod.fst) : lookupLast l k = none := by
  induction l with
  | nil => rfl
  | cons e rest ih =>
    obtain ⟨k', v⟩ := e
    simp only [List.map_cons, List.mem_cons] at h
    push_neg at h
    simp only [lookupLast, ih h.2]
    rw [if_neg (fun hc => h.1 hc.symm)]

theorem lookupLast_map_mem (f : CVal → CVal) :
    ∀ (l : List (List Char × CVal)) (k : List Char) (v : CVal),
      (l.map Prod.fst).Nodup → (k, v) ∈ l →
      lookupLast (l.map fun e => (e.1, f e.2)) k = some (f v) := by
  intro l
  induction l with
  | nil =>
    intro k v _ hmem
    exact absurd hmem (List.not_mem_nil (k, v))
  | cons e rest ih =>
    intro k v hnd hmem
    obtain ⟨k', v'⟩ := e
    simp only [List.map_cons, List.nodup_cons] at hnd
    obtain ⟨hk', hrest⟩ := hnd
    rcases List.mem_cons.mp hmem with heq | hmem'
    · injection heq with h1 h2
      subst h1
      subst h2
      have hnone : lookupLast (rest.map fun e => (e.1, f e.2)) k = none := by
        apply lookupLast_none
        rw [List.map_map]
        exact hk'
      simp [lookupLast, hnone]
    · have hrec := ih k v hrest hmem'
      simp only [List.map_cons, lookupLast, hrec]

/-- C4 counterexample: store the boolean `true` under key `k`.
`save_to_file` writes `k=1` (`operator<<` prints `bool` as `1`/`0`), and
`load_from_file`'s `parse_value` reads `1` back as the integer 1 — the loaded
value has a different type than the saved one, refuting the claim that the
round trip yields an equal value for every key of every supported type. -/
theorem config_roundtrip_cex :
    saveFile [(['k'], CVal.boolV true)] = "k=1\n".data
    ∧ loadFile (saveFile [(['k'], CVal.boolV true)]) = [(['k'], CVal.intV 1)]
    ∧ lookupLast (loadFile (saveFile [(['k'], CVal.boolV true)])) ['k'] =
        some (CVal.intV 1)
    ∧ CVal.intV 1 ≠ CVal.boolV true := by decide

/-- C4 (amended): saving entries and loading the file back re-parses each
value from its printed text after quote stripping.  For every key (no
newline, no `'='`, trimmed, not starting with `#`): an `int` value loads back
equal; a string value loads back equal provided its text does not itself
re-parse as a boolean, integer or floating-point literal (quoting is stripped
before `parse_value` runs, so it does not protect such strings); a boolean
value loads back as the integer 1 or 0, not as a boolean.  With distinct
keys, the loaded map binds every key to exactly this re-parsed value.
(Floating-point values are outside the formalisation.) -/
theorem config_roundtrip (entries : List (List Char × CVal))
    (h : ∀ e ∈ entries, keyWF e.1 ∧ valWF e.2) :
    loadFile (saveFile entries) = entries.map (fun e => (e.1, reload e.2))
    ∧ (∀ e ∈ entries,
        (∀ s, e.2 = CVal.str s → reload e.2 = CVal.str s)
        ∧ (∀ i, e.2 = CVal.intV i → reload e.2 = CVal.intV i)
        ∧ (∀ b, e.2 = CVal.boolV b → reload e.2 = CVal.intV (if b then 1 else 0)))
    ∧ ((entries.map Prod.fst).Nodup →
        ∀ k v, (k, v) ∈ entries →
          lookupLast (loadFile (saveFile entries)) k = some (reload v)) := by
  refine ⟨loadFile_saveFile entries h, ?_, ?_⟩
  · intro e he
    have hv := (h e he).2
    refine ⟨?_, ?_, ?_⟩
    · intro s hs
      rw [hs]
      rw [hs] at hv
      exact reload_str hv.2
    · intro i hi
      rw [hi]
      rw [hi] at hv
      exact reload_int i hv.1 hv.2
    · intro b hb
      rw [hb]
      exact reload_bool b
  · intro hnd k v hmem
    rw [loadFile_saveFile entries h]
    exact lookupLast_map_mem reload entries k v hnd hmem

/-- Witness for C4 (amended): a three-entry configuration — a string, an
`int`, and a `bool`; the load result is the save input except that the `bool`
comes back as an integer. -/
theorem config_roundtrip_witness :
    loadFile (saveFile
      [("host".data, CVal.str "local".data), ("port".data, CVal.intV 9),
       ("on".data, CVal.boolV true)]) =
      [("host".data, CVal.str "local".data), ("port".data, CVal.intV 9),
       ("on".data, CVal.boolV true)].map (fun e => (e.1, reload e.2)) :=
  (config_roundtrip
    [("host".data, CVal.str "local".data), ("port".data, CVal.intV 9),
     ("on".data, CVal.boolV true)] (by decide)).1

end Cfg
